import Mathlib

/-!
Verification development for the post-processing utilities module
(`utils/processing.py`): field normalizers (`clean_cost`, `sanity_check_hp`,
`smart_extract_hp`, `validate_bbox`) over a model of loosely-typed Python
values, and the confidence estimator (`calculate_confidence`) over real-valued
score vectors.
-/

/-- Python float values: finite rationals, NaN, and the two infinities.
Finite floats are modelled as exact rationals. -/
inductive PyFloat where
  | finite (q : ℚ)
  | nan
  | inf
  | ninf
deriving DecidableEq

/-- Loosely-typed Python values as they reach the normalizers: `None`,
booleans, ints, floats, strings, lists and string-keyed dicts (modelled as
association lists in insertion order). -/
inductive Value where
  | none
  | bool (b : Bool)
  | int (n : ℤ)
  | float (f : PyFloat)
  | str (s : String)
  | list (l : List Value)
  | dict (d : List (String × Value))

/-- Python truthiness, `bool(v)`: `None`/`False`/zero/empty are falsy;
NaN and the infinities are truthy. -/
def truthy : Value → Bool
  | Value.none => false
  | Value.bool b => b
  | Value.int n => n != 0
  | Value.float (PyFloat.finite q) => q != 0
  | Value.float _ => true
  | Value.str s => s != ""
  | Value.list l => !l.isEmpty
  | Value.dict d => !d.isEmpty

/-- Value of a digit string read in base 10. -/
def digitsToNat (cs : List Char) : ℕ :=
  cs.foldl (fun a c => 10 * a + (c.toNat - 48)) 0

/-- Model of Python `int(s)` on strings: optional surrounding whitespace, an
optional sign, then a nonempty digit run. (PEP 515 underscore grouping is not
modelled.) `Option.none` models a raised `ValueError`. -/
def parseIntString (s : String) : Option ℤ :=
  let cs := s.toList.dropWhile (fun c => c.isWhitespace)
  let cs := (cs.reverse.dropWhile (fun c => c.isWhitespace)).reverse
  match cs with
  | [] => Option.none
  | c :: rest =>
    if c = '-' then
      if !rest.isEmpty && rest.all Char.isDigit
      then Option.some (-(digitsToNat rest : ℤ)) else Option.none
    else if c = '+' then
      if !rest.isEmpty && rest.all Char.isDigit
      then Option.some (digitsToNat rest : ℤ) else Option.none
    else
      if (c :: rest).all Char.isDigit
      then Option.some (digitsToNat (c :: rest) : ℤ) else Option.none

/-- Python `int()` truncation toward zero on finite floats. -/
def pyTrunc (q : ℚ) : ℤ := q.num.tdiv q.den

/-- Model of Python `int(v)`: `Option.none` models a raised exception.
Booleans are ints (`True` is 1); finite floats truncate toward zero; NaN and
the infinities raise; strings parse as integer literals; any other type
raises `TypeError`. -/
def pyIntOf : Value → Option ℤ
  | Value.bool b => Option.some (if b then 1 else 0)
  | Value.int n => Option.some n
  | Value.float (PyFloat.finite q) => Option.some (pyTrunc q)
  | Value.float _ => Option.none
  | Value.str s => parseIntString s
  | _ => Option.none

/-- Embedding of `clean_cost` (source lines 6-13). The `isinstance(raw_cost,
(int, float))` branch covers booleans, since `bool` is a subclass of `int` in
Python. `Option.none` models a raised exception: only `int(nan)` and
`int(±inf)` raise here. -/
def clean_cost (raw_cost : Value) : Option ℤ :=
  match raw_cost with
  | Value.bool b => Option.some (if b then 1 else 0)
  | Value.int n => Option.some n
  | Value.float (PyFloat.finite q) => Option.some (pyTrunc q)
  | Value.float _ => Option.none
  | Value.str s =>
    let clean := s.toList.filter Char.isDigit
    if clean.isEmpty then Option.some 0 else Option.some (digitsToNat clean : ℤ)
  | _ => Option.some 0

/-- Embedding of `sanity_check_hp` (source lines 16-24). `Option.none` is the
Python `None` return ("absent"). The bare `except` swallows every exception,
so the failing `int(val)` case is the `Option.none` branch of `pyIntOf`. -/
def sanity_check_hp (val : Value) : Option ℤ :=
  if !(truthy val) then Option.none
  else
    match pyIntOf val with
    | Option.some ival =>
      if 15 ≤ ival ∧ ival ≤ 100 then Option.some ival else Option.none
    | Option.none => Option.none

/-- First maximal digit run in a string, modelling
`re.search(r'(\d+)', raw_hp)` (source line 31). -/
def firstDigitRun (cs : List Char) : Option (List Char) :=
  match cs.dropWhile (fun c => !c.isDigit) with
  | [] => Option.none
  | c :: rest => Option.some (c :: rest.takeWhile Char.isDigit)

/-- One of `H`, `h`. -/
def isHChar (c : Char) : Bool := c = 'H' || c = 'h'

/-- One of `P`, `p`. -/
def isPChar (c : Char) : Bool := c = 'P' || c = 'p'

/-- Marker alternation `(?:HP|H\.P\.|hp|Hp)` under `re.IGNORECASE` (source
line 41): the two-letter form is tried first, then the dotted form; the
result is the remainder of the input after the marker. -/
def matchHPMarker : List Char → Option (List Char)
  | h :: p :: rest =>
    if isHChar h && isPChar p then Option.some rest
    else if isHChar h && p = '.' then
      match rest with
      | p2 :: d2 :: rest2 =>
        if isPChar p2 && d2 = '.' then Option.some rest2 else Option.none
      | _ => Option.none
    else Option.none
  | _ => Option.none

/-- Try `(\d{2})\s*(?:HP|H\.P\.|hp|Hp)` at the current position: exactly two
digits, greedy whitespace, then the marker (the marker cannot begin with
whitespace, so maximal munch is exact). Returns the two-digit group and the
remainder after the whole match. -/
def matchHPAt : List Char → Option (List Char × List Char)
  | d1 :: d2 :: rest =>
    if d1.isDigit && d2.isDigit then
      match matchHPMarker (rest.dropWhile Char.isWhitespace) with
      | Option.some rest2 => Option.some ([d1, d2], rest2)
      | Option.none => Option.none
    else Option.none
  | _ => Option.none

/-- Scanner for `re.findall` (source lines 40-41): left-to-right,
non-overlapping matches; on a match resume after it, otherwise advance one
character. Every step consumes at least one character, so calling with fuel
equal to the input length computes the full match list. -/
def findallHP : ℕ → List Char → List (List Char)
  | 0, _ => []
  | _, [] => []
  | fuel + 1, c :: rest =>
    match matchHPAt (c :: rest) with
    | Option.some (grp, after) => grp :: findallHP fuel after
    | Option.none => findallHP fuel rest

/-- Field records reaching `smart_extract_hp`: the two keys it reads.
`Option.none` models the key being absent, so that `data.get` falls back to
its default (`None` for `horse_power`, `""` for `model_name`). -/
structure Record where
  horse_power : Option Value
  model_name : Option Value

/-- Candidate value of strategy 1 (source lines 29-33): the `horse_power`
field, with a string replaced by its first digit run when one exists. -/
def hpCandidate (data : Record) : Value :=
  match data.horse_power.getD Value.none with
  | Value.str s =>
    match firstDigitRun s.toList with
    | Option.some ds => Value.int (digitsToNat ds : ℤ)
    | Option.none => Value.str s
  | v => v

/-- Strategy 1 of `smart_extract_hp` (source lines 29-36): validate the
candidate with `sanity_check_hp`. The source then returns `int(raw_hp)`,
which equals the integer the validator produced from the same value, so the
strategy's result is exactly the validator's result. -/
def hpDirect (data : Record) : Option ℤ :=
  sanity_check_hp (hpCandidate data)

/-- Strategy 2 of `smart_extract_hp` (source lines 38-44): when `model_name`
is a nonempty string, run the findall scan and return the first two-digit
group that passes `sanity_check_hp` (the source returns `int(m)`, which
equals the validated integer, so each candidate contributes exactly the
validator's result). -/
def hpFallback (data : Record) : Option ℤ :=
  let model_str := data.model_name.getD (Value.str "")
  match model_str with
  | Value.str s =>
    if s != "" then
      (findallHP s.toList.length s.toList).findSome? (fun m =>
        sanity_check_hp (Value.str (String.mk m)))
    else Option.none
  | _ => Option.none

/-- Embedding of `smart_extract_hp` (source lines 27-45): the direct field
strategy, then the model-name scan; first hit wins. The truthiness test
`if sanity_check_hp(raw_hp):` coincides with the validator returning a value,
since every accepted value lies in [15, 100] and is hence truthy. -/
def smart_extract_hp (data : Record) : Option ℤ :=
  match hpDirect data with
  | Option.some i => Option.some i
  | Option.none => hpFallback data

/-- Lookup of a key in a dict. -/
def lookupVal (k : String) (d : List (String × Value)) : Option Value :=
  (d.find? (fun kv => kv.fst == k)).map Prod.snd

/-- Record view of a dict input: the two keys `smart_extract_hp` reads,
with a missing key mapped to `Option.none` so that `data.get` falls back to
its default. -/
def recordOfDict (d : List (String × Value)) : Record :=
  ⟨lookupVal "horse_power" d, lookupVal "model_name" d⟩

/-- Calling `smart_extract_hp` on an arbitrary Python value. Only mappings
have a `.get` method, so every non-dict input raises `AttributeError` at the
unguarded `data.get("horse_power")` (source line 29), modelled as the outer
`Option.none`; a dict input runs the extractor on its record view and
returns that result (inner `Option`, `Option.none` meaning "absent"). -/
def smart_extract_hp_py (v : Value) : Option (Option ℤ) :=
  match v with
  | Value.dict d => Option.some (smart_extract_hp (recordOfDict d))
  | _ => Option.none


/-- Key membership test, `k in d`. -/
def hasKey (k : String) (d : List (String × Value)) : Bool :=
  d.any (fun kv => kv.fst == k)

/-- Insertion of a fresh key; Python dicts keep insertion order, so the new
key goes at the end. Only called when the key is missing. -/
def setKey (k : String) (v : Value) (d : List (String × Value)) : List (String × Value) :=
  d ++ [(k, v)]

/-- The all-zero default box `[0, 0, 0, 0]`. -/
def zeroBox : Value := Value.list [Value.int 0, Value.int 0, Value.int 0, Value.int 0]

/-- Numeric view of a value, reflecting that Python compares bools, ints and
floats by numeric value. -/
def numOf : Value → Option PyFloat
  | Value.bool b => Option.some (PyFloat.finite (if b then 1 else 0))
  | Value.int n => Option.some (PyFloat.finite (n : ℚ))
  | Value.float f => Option.some f
  | _ => Option.none

/-- Python equality of a value with the literal zero (`False`, `0` and `0.0`
are all equal to `0`; NaN is equal to nothing). -/
def isZeroNum (v : Value) : Bool :=
  match numOf v with
  | Option.some (PyFloat.finite q) => q == 0
  | _ => false

/-- Python `v == [0, 0, 0, 0]` specialised to the zero box, the only equality
test `validate_bbox` performs: a 4-element list whose entries are all
numerically zero. -/
def eqZeroBox : Value → Bool
  | Value.list l => l.length == 4 && l.all isZeroNum
  | _ => false

/-- Embedding of `validate_bbox` (source lines 81-94). The in-place mutation
of a dict argument is modelled by returning the updated dict. Note the falsy
test comes first, so the empty list and the empty dict take the default
branch before the `isinstance` tests are reached. -/
def validate_bbox (field_data : Value) : Value :=
  let defaultV := Value.dict [("present", Value.bool false), ("bbox", zeroBox)]
  if !(truthy field_data) then defaultV
  else
    match field_data with
    | Value.list l =>
      Value.dict [("present", Value.bool true),
        ("bbox", if l.length == 4 then Value.list l else zeroBox)]
    | Value.dict d =>
      let d1 := if hasKey "bbox" d then d else setKey "bbox" zeroBox d
      let d2 :=
        if hasKey "present" d1 then d1
        else setKey "present"
          (Value.bool (!(eqZeroBox ((lookupVal "bbox" d1).getD Value.none)))) d1
      Value.dict d2
    | _ => defaultV

/-- Softmax over the vocabulary dimension (source line 62). Float32
arithmetic is modelled by exact real arithmetic; the numerically stable
torch implementation computes the same real function. -/
noncomputable def softmax (l : List ℝ) : List ℝ :=
  l.map (fun x => Real.exp x / (l.map Real.exp).sum)

/-- Maximum probability of a step, modelling `torch.max(step_probs, dim=-1)`
(source line 63). For an empty step — where torch raises — this returns the
junk value 0; `calculate_confidence` maps that case to an error. -/
noncomputable def maxSoftmaxProb (step : List ℝ) : ℝ :=
  match softmax step with
  | [] => 0
  | h :: t => t.foldl max h

/-- Ascending sort, modelling `probs.sort()` (source line 67). Python uses a
stable mergesort, but on a linear order every correct sort produces the same
list, so insertion sort is a faithful model. -/
noncomputable def sortR (l : List ℝ) : List ℝ := List.insertionSort (· ≤ ·) l

/-- Arithmetic mean, modelling `np.mean` (source line 75). -/
noncomputable def mean (l : List ℝ) : ℝ := l.sum / l.length

/-- Rounding to 4 decimal places, modelling `round(avg_score, 4)` (source
line 78). Exact ties are rounded half-up here; Python rounds half-to-even,
which differs only on exact ties of `x * 10000`. -/
noncomputable def round4 (x : ℝ) : ℝ := ((round (x * 10000) : ℤ) : ℝ) / 10000

/-- Aggregation half of `calculate_confidence` (source lines 64-78): the
defensive `if not probs` re-check, the ascending sort, the bottom-quartile
cutoff `max(1, int(len(probs) * 0.25))` (natural-number division by 4 is
exactly `int(n * 0.25)`), the mean of the slice, and the final rounding. -/
noncomputable def confAgg (probs : List ℝ) : ℝ :=
  match probs with
  | [] => 0
  | _ :: _ => round4 (mean ((sortR probs).take (max 1 (probs.length / 4))))

open Classical in
/-- Embedding of `calculate_confidence` (source lines 48-78). `Option.none`
models the `RuntimeError` that `torch.max` raises when some step is an empty
vector; every other input produces a value. -/
noncomputable def calculate_confidence (scores : List (List ℝ)) : Option ℝ :=
  match scores with
  | [] => Option.some 0
  | s :: ss =>
    if (∀ step ∈ s :: ss, step ≠ []) then
      Option.some (confAgg ((s :: ss).map maxSoftmaxProb))
    else Option.none

example : parseIntString " 50 " = Option.some 50 := by decide
example : parseIntString "" = Option.none := by decide
example : pyIntOf (Value.str "abc") = Option.none := by decide
example : pyTrunc (⟨-7, 2, by decide, by decide⟩ : ℚ) = -3 := by decide

example : sanity_check_hp (Value.int 50) = Option.some 50 := by decide
example : sanity_check_hp (Value.int 14) = Option.none := by decide
example : sanity_check_hp (Value.int 101) = Option.none := by decide
example : sanity_check_hp (Value.int 0) = Option.none := by decide
example : sanity_check_hp (Value.str "abc") = Option.none := by decide

example : smart_extract_hp ⟨Option.some (Value.str "75 HP engine"), Option.none⟩
    = Option.some 75 := by decide
example : smart_extract_hp ⟨Option.some Value.none, Option.some (Value.str "Model X 60HP Turbo")⟩
    = Option.some 60 := by decide
example : smart_extract_hp ⟨Option.some Value.none, Option.some (Value.str "Plain Model")⟩
    = Option.none := by decide
example : smart_extract_hp ⟨Option.some Value.none, Option.some (Value.str "Alpha 55 H.P. trim")⟩
    = Option.some 55 := by decide
example : smart_extract_hp ⟨Option.some Value.none, Option.some (Value.str "X 160HP")⟩
    = Option.some 60 := by decide

example : validate_bbox Value.none
    = Value.dict [("present", Value.bool false), ("bbox", zeroBox)] := by rfl
example : validate_bbox (Value.list [Value.int 1, Value.int 2, Value.int 3, Value.int 4])
    = Value.dict [("present", Value.bool true),
        ("bbox", Value.list [Value.int 1, Value.int 2, Value.int 3, Value.int 4])] := by rfl
example : validate_bbox (Value.list [Value.int 1, Value.int 2, Value.int 3])
    = Value.dict [("present", Value.bool true), ("bbox", zeroBox)] := by rfl
example : validate_bbox (Value.dict [("bbox", Value.list [Value.int 1, Value.int 1, Value.int 1, Value.int 1])])
    = Value.dict [("bbox", Value.list [Value.int 1, Value.int 1, Value.int 1, Value.int 1]),
        ("present", Value.bool true)] := by rfl

theorem le_foldl_max (t : List ℝ) (a : ℝ) : a ≤ t.foldl max a := by
  induction t generalizing a with
  | nil => simp
  | cons x xs ih => exact le_trans (le_max_left a x) (ih (max a x))

theorem foldl_max_le (t : List ℝ) (a B : ℝ) (ha : a ≤ B) (ht : ∀ x ∈ t, x ≤ B) :
    t.foldl max a ≤ B := by
  induction t generalizing a with
  | nil => simpa
  | cons x xs ih =>
    exact ih (max a x) (max_le ha (ht x (by simp))) (fun y hy => ht y (by simp [hy]))

theorem expSum_pos (l : List ℝ) (h : l ≠ []) : 0 < (l.map Real.exp).sum := by
  apply List.sum_pos
  · intro x hx
    obtain ⟨a, _, rfl⟩ := List.mem_map.mp hx
    exact Real.exp_pos a
  · simpa using h

theorem softmax_mem_bounds {l : List ℝ} {x : ℝ} (hl : l ≠ []) (hx : x ∈ softmax l) :
    0 < x ∧ x ≤ 1 := by
  obtain ⟨a, ha, rfl⟩ := List.mem_map.mp hx
  have hS := expSum_pos l hl
  refine ⟨div_pos (Real.exp_pos a) hS, ?_⟩
  rw [div_le_one hS]
  exact List.single_le_sum (fun y hy => by
      obtain ⟨b, _, rfl⟩ := List.mem_map.mp hy
      exact (Real.exp_pos b).le)
    _ (List.mem_map_of_mem Real.exp ha)

theorem maxSoftmaxProb_bounds {step : List ℝ} (h : step ≠ []) :
    0 < maxSoftmaxProb step ∧ maxSoftmaxProb step ≤ 1 := by
  have hmem : ∀ x ∈ softmax step, 0 < x ∧ x ≤ 1 := fun x hx => softmax_mem_bounds h hx
  cases hc : softmax step with
  | nil =>
    exfalso
    apply h
    simpa [softmax] using hc
  | cons hd tl =>
    have heq : maxSoftmaxProb step = tl.foldl max hd := by
      rw [maxSoftmaxProb, hc]
    rw [hc] at hmem
    rw [heq]
    constructor
    · exact lt_of_lt_of_le (hmem hd (by simp)).1 (le_foldl_max tl hd)
    · exact foldl_max_le tl hd 1 (hmem hd (by simp)).2
        (fun x hx => (hmem x (by simp [hx])).2)

theorem sortR_perm (l : List ℝ) : List.Perm (sortR l) l := List.perm_insertionSort _ l

theorem sortR_sorted (l : List ℝ) : List.Sorted (· ≤ ·) (sortR l) :=
  List.sorted_insertionSort _ l

theorem sortR_congr {l₁ l₂ : List ℝ} (h : List.Perm l₁ l₂) : sortR l₁ = sortR l₂ :=
  List.eq_of_perm_of_sorted (((sortR_perm l₁).trans h).trans (sortR_perm l₂).symm)
    (sortR_sorted l₁) (sortR_sorted l₂)

theorem mean_nonneg {l : List ℝ} (h : ∀ x ∈ l, 0 ≤ x) : 0 ≤ mean l :=
  div_nonneg (List.sum_nonneg h) (Nat.cast_nonneg _)

theorem mean_le_one {l : List ℝ} (hne : l ≠ []) (h : ∀ x ∈ l, x ≤ 1) : mean l ≤ 1 := by
  have hlen : (0 : ℝ) < l.length := by
    exact_mod_cast List.length_pos.mpr hne
  rw [mean, div_le_one hlen]
  simpa using List.sum_le_card_nsmul l 1 h

theorem round4_nonneg {x : ℝ} (hx : 0 ≤ x) : 0 ≤ round4 x := by
  apply div_nonneg _ (by norm_num)
  have h0 : (0 : ℤ) ≤ round (x * 10000) := by
    rw [round_eq]
    apply Int.floor_nonneg.mpr
    nlinarith
  exact_mod_cast h0

theorem round4_le_one {x : ℝ} (hx : x ≤ 1) : round4 x ≤ 1 := by
  rw [round4, div_le_one (by norm_num : (0:ℝ) < 10000)]
  have h1 : round (x * 10000) ≤ 10000 := by
    rw [round_eq]
    have hfl : ⌊x * 10000 + 1/2⌋ < 10001 := by
      apply Int.floor_lt.mpr
      push_cast
      nlinarith
    omega
  exact_mod_cast h1

theorem confAgg_bounds {probs : List ℝ} (hne : probs ≠ [])
    (hmem : ∀ x ∈ probs, 0 < x ∧ x ≤ 1) : 0 ≤ confAgg probs ∧ confAgg probs ≤ 1 := by
  cases probs with
  | nil => exact absurd rfl hne
  | cons p ps =>
    have heq : confAgg (p :: ps) =
        round4 (mean ((sortR (p :: ps)).take (max 1 ((p :: ps).length / 4)))) := rfl
    rw [heq]
    have htake : ∀ x ∈ (sortR (p :: ps)).take (max 1 ((p :: ps).length / 4)),
        0 < x ∧ x ≤ 1 := by
      intro x hx
      exact hmem x ((sortR_perm (p :: ps)).subset (List.mem_of_mem_take hx))
    have htne : (sortR (p :: ps)).take (max 1 ((p :: ps).length / 4)) ≠ [] := by
      apply List.ne_nil_of_length_pos
      rw [List.length_take]
      have h1 : 0 < max 1 ((p :: ps).length / 4) := lt_of_lt_of_le one_pos (le_max_left _ _)
      have h2 : 0 < (sortR (p :: ps)).length := by
        rw [(sortR_perm (p :: ps)).length_eq]
        simp
      omega
    exact ⟨round4_nonneg (mean_nonneg (fun x hx => (htake x hx).1.le)),
      round4_le_one (mean_le_one htne (fun x hx => (htake x hx).2))⟩

theorem calculate_confidence_nil : calculate_confidence ([] : List (List ℝ)) = Option.some 0 := rfl

theorem calculate_confidence_cons (s : List ℝ) (ss : List (List ℝ))
    (h : ∀ step ∈ s :: ss, step ≠ []) :
    calculate_confidence (s :: ss) = Option.some (confAgg ((s :: ss).map maxSoftmaxProb)) := by
  rw [calculate_confidence]
  rw [if_pos h]

theorem calculate_confidence_of_empty_step (s : List ℝ) (ss : List (List ℝ))
    (h : ¬ ∀ step ∈ s :: ss, step ≠ []) :
    calculate_confidence (s :: ss) = Option.none := by
  rw [calculate_confidence]
  rw [if_neg h]

theorem mean_singleton (x : ℝ) : mean [x] = x := by
  simp [mean]

theorem confAgg_perm {p₁ p₂ : List ℝ} (h : List.Perm p₁ p₂) : confAgg p₁ = confAgg p₂ := by
  cases p₁ with
  | nil =>
    have h2 : p₂ = [] := h.symm.eq_nil
    subst h2
    rfl
  | cons x xs =>
    cases p₂ with
    | nil => exact absurd h.eq_nil (by simp)
    | cons y ys =>
      have e1 : confAgg (x :: xs) =
          round4 (mean ((sortR (x :: xs)).take (max 1 ((x :: xs).length / 4)))) := rfl
      have e2 : confAgg (y :: ys) =
          round4 (mean ((sortR (y :: ys)).take (max 1 ((y :: ys).length / 4)))) := rfl
      rw [e1, e2, sortR_congr h, h.length_eq]

theorem falsy_pyIntOf {v : Value} (h : truthy v = false) :
    pyIntOf v = Option.none ∨ pyIntOf v = Option.some 0 := by
  rcases v with _ | b | n | f | s | l | d
  · exact Or.inl rfl
  · cases b
    · exact Or.inr rfl
    · simp [truthy] at h
  · right
    simp [truthy] at h
    simp [pyIntOf, h]
  · rcases f with q | _ | _ | _
    · right
      simp [truthy] at h
      simp [pyIntOf, h, pyTrunc]
    · simp [truthy] at h
    · simp [truthy] at h
    · simp [truthy] at h
  · left
    simp [truthy] at h
    subst h
    rfl
  · exact Or.inl rfl
  · exact Or.inl rfl

theorem sanity_check_hp_some_range {v : Value} {i : ℤ}
    (h : sanity_check_hp v = Option.some i) : 15 ≤ i ∧ i ≤ 100 := by
  by_cases ht : truthy v
  · simp only [sanity_check_hp, ht, Bool.not_true, Bool.false_eq_true, if_false] at h
    cases hp : pyIntOf v with
    | none => rw [hp] at h; exact absurd h (by simp)
    | some j =>
      simp only [hp] at h
      by_cases hr : 15 ≤ j ∧ j ≤ 100
      · rw [if_pos hr] at h
        obtain rfl : j = i := by injection h
        exact hr
      · rw [if_neg hr] at h
        exact absurd h (by simp)
  · have hf : truthy v = false := by simpa using ht
    simp only [sanity_check_hp, hf] at h
    exact absurd h (by simp)

theorem findSome?_mem {α β : Type} {l : List α} {f : α → Option β} {b : β}
    (h : l.findSome? f = Option.some b) : ∃ a ∈ l, f a = Option.some b := by
  induction l with
  | nil => simp [List.findSome?] at h
  | cons x xs ih =>
    rw [List.findSome?] at h
    cases hf : f x with
    | some c =>
      rw [hf] at h
      exact ⟨x, by simp, by rw [hf]; exact h⟩
    | none =>
      rw [hf] at h
      obtain ⟨a, ha, hfa⟩ := ih h
      exact ⟨a, by simp [ha], hfa⟩

theorem hasKey_setKey_self (k : String) (v : Value) (d : List (String × Value)) :
    hasKey k (setKey k v d) = true := by
  simp [hasKey, setKey]

theorem hasKey_setKey_mono (k k2 : String) (v : Value) (d : List (String × Value))
    (h : hasKey k d = true) : hasKey k (setKey k2 v d) = true := by
  simp only [hasKey, setKey, List.any_append, Bool.or_eq_true]
  exact Or.inl h

/-- C1: for every finite, possibly-empty Score Sequence (whose steps are
score vectors over the nonempty vocabulary), `calculate_confidence` returns a
defined Confidence Value in [0, 1]; for the empty sequence it returns exactly
0.0 and never signals an error. -/
theorem C1_confidence_defined_and_bounded :
    calculate_confidence ([] : List (List ℝ)) = Option.some 0 ∧
    ∀ scores : List (List ℝ), (∀ step ∈ scores, step ≠ []) →
      ∃ r : ℝ, calculate_confidence scores = Option.some r ∧ 0 ≤ r ∧ r ≤ 1 := by
  refine ⟨rfl, ?_⟩
  intro scores h
  cases scores with
  | nil => exact ⟨0, rfl, le_refl 0, zero_le_one⟩
  | cons s ss =>
    rw [calculate_confidence_cons s ss h]
    have hprobs : ∀ x ∈ (s :: ss).map maxSoftmaxProb, 0 < x ∧ x ≤ 1 := by
      intro x hx
      obtain ⟨step, hstep, rfl⟩ := List.mem_map.mp hx
      exact maxSoftmaxProb_bounds (h step hstep)
    have hne : (s :: ss).map maxSoftmaxProb ≠ [] := by simp
    obtain ⟨h0, h1⟩ := confAgg_bounds hne hprobs
    exact ⟨_, rfl, h0, h1⟩

/-- Witness for C1 at the concrete one-step sequence [[0]]. -/
theorem C1_confidence_defined_and_bounded_witness :
    ∃ r : ℝ, calculate_confidence [[(0 : ℝ)]] = Option.some r ∧ 0 ≤ r ∧ r ≤ 1 :=
  C1_confidence_defined_and_bounded.2 [[(0 : ℝ)]] (by simp)

/-- C3: permuting the sequence (generation) order of the steps does not
change the result of `calculate_confidence`. -/
theorem C3_confidence_perm_invariant :
    ∀ s₁ s₂ : List (List ℝ), List.Perm s₁ s₂ →
      calculate_confidence s₁ = calculate_confidence s₂ := by
  intro s₁ s₂ hp
  cases s₁ with
  | nil =>
    have h2 : s₂ = [] := hp.symm.eq_nil
    subst h2
    rfl
  | cons a as =>
    cases s₂ with
    | nil => exact absurd hp.eq_nil (by simp)
    | cons b bs =>
      by_cases hall : ∀ step ∈ a :: as, step ≠ []
      · have hall2 : ∀ step ∈ b :: bs, step ≠ [] := fun st hst => hall st (hp.mem_iff.mpr hst)
        rw [calculate_confidence_cons _ _ hall, calculate_confidence_cons _ _ hall2]
        exact congrArg Option.some (confAgg_perm (hp.map maxSoftmaxProb))
      · have hall2 : ¬ ∀ step ∈ b :: bs, step ≠ [] :=
          fun hc => hall (fun st hst => hc st (hp.mem_iff.mp hst))
        rw [calculate_confidence_of_empty_step _ _ hall,
          calculate_confidence_of_empty_step _ _ hall2]

/-- Witness for C3 at a concrete two-step sequence and its swap. -/
theorem C3_confidence_perm_invariant_witness :
    calculate_confidence [[(1 : ℝ)], [2]] = calculate_confidence [[(2 : ℝ)], [1]] :=
  C3_confidence_perm_invariant _ _ (List.Perm.swap _ _ _)

/-- C4: for a nonempty sequence of n steps the result is the rounded mean of
the lowest max(1, n / 4) per-step maximum softmax probabilities after sorting
ascending (natural division n / 4 is floor(n * 0.25)); for n = 1 it is that
single step's maximum softmax probability rounded to 4 places. -/
theorem C4_confidence_bottom_quartile :
    (∀ scores : List (List ℝ), scores ≠ [] → (∀ step ∈ scores, step ≠ []) →
      calculate_confidence scores = Option.some (round4 (mean
        ((sortR (scores.map maxSoftmaxProb)).take (max 1 (scores.length / 4)))))) ∧
    (∀ step : List ℝ, step ≠ [] →
      calculate_confidence [step] = Option.some (round4 (maxSoftmaxProb step))) := by
  constructor
  · intro scores hne h
    cases scores with
    | nil => exact absurd rfl hne
    | cons s ss =>
      rw [calculate_confidence_cons s ss h]
      have e1 : confAgg ((s :: ss).map maxSoftmaxProb) =
          round4 (mean ((sortR ((s :: ss).map maxSoftmaxProb)).take
            (max 1 (((s :: ss).map maxSoftmaxProb).length / 4)))) := rfl
      rw [e1, List.length_map]
  · intro step hstep
    have hall : ∀ st ∈ [step], st ≠ [] := by
      intro st hst
      rw [List.mem_singleton] at hst
      subst hst
      exact hstep
    rw [calculate_confidence_cons step [] hall]
    have e1 : confAgg ([step].map maxSoftmaxProb) =
        round4 (mean ((sortR [maxSoftmaxProb step]).take (max 1 (1 / 4)))) := rfl
    rw [e1]
    have e2 : (sortR [maxSoftmaxProb step]).take (max 1 (1 / 4)) = [maxSoftmaxProb step] := rfl
    rw [e2, mean_singleton]

/-- Witness for C4 at the concrete one-step sequence [[0]]. -/
theorem C4_confidence_bottom_quartile_witness :
    calculate_confidence [[(0 : ℝ)]] = Option.some (round4 (maxSoftmaxProb [(0 : ℝ)])) :=
  C4_confidence_bottom_quartile.2 [(0 : ℝ)] (by simp)

/-- C6: the validator returns an integer exactly when the input parses as an
integer (in the modelled `int()` semantics) lying in the inclusive range
[15, 100]; falsy input short-circuits to absent, and it never raises (the
embedding is a total function into `Option`). -/
theorem C6_sanity_check_hp_contract :
    (∀ (v : Value) (i : ℤ), sanity_check_hp v = Option.some i ↔
      (pyIntOf v = Option.some i ∧ 15 ≤ i ∧ i ≤ 100)) ∧
    (∀ v : Value, truthy v = false → sanity_check_hp v = Option.none) := by
  have hfalsy : ∀ v : Value, truthy v = false → sanity_check_hp v = Option.none := by
    intro v h
    simp [sanity_check_hp, h]
  refine ⟨?_, hfalsy⟩
  intro v i
  constructor
  · intro h
    by_cases ht : truthy v
    · simp only [sanity_check_hp, ht, Bool.not_true, Bool.false_eq_true, if_false] at h
      cases hp : pyIntOf v with
      | none => rw [hp] at h; exact absurd h (by simp)
      | some j =>
        simp only [hp] at h
        by_cases hr : 15 ≤ j ∧ j ≤ 100
        · rw [if_pos hr] at h
          obtain rfl : j = i := by injection h
          exact ⟨rfl, hr.1, hr.2⟩
        · rw [if_neg hr] at h
          exact absurd h (by simp)
    · have hf : truthy v = false := by simpa using ht
      rw [hfalsy v hf] at h
      exact absurd h (by simp)
  · rintro ⟨hp, h15, h100⟩
    have ht : truthy v = true := by
      by_contra hcon
      have hf : truthy v = false := by simpa using hcon
      rcases falsy_pyIntOf hf with h0 | h0 <;> rw [h0] at hp
      · exact absurd hp (by simp)
      · obtain rfl : (0 : ℤ) = i := by injection hp
        omega
    simp only [sanity_check_hp, ht, Bool.not_true, Bool.false_eq_true, if_false, hp]
    rw [if_pos ⟨h15, h100⟩]

/-- Witness for C6: a parsing string in range is accepted; falsy zero is
rejected without parsing. -/
theorem C6_sanity_check_hp_contract_witness :
    sanity_check_hp (Value.str "50") = Option.some 50 ∧
    sanity_check_hp (Value.int 0) = Option.none :=
  ⟨(C6_sanity_check_hp_contract.1 (Value.str "50") 50).mpr ⟨by decide, by decide, by decide⟩,
   C6_sanity_check_hp_contract.2 (Value.int 0) (by decide)⟩

/-- C7: two ordered strategies, first match wins — the validated horse_power
field, then the model_name scan — together with the spec's concrete
examples: a "75 HP engine" horse_power yields 75, a None horse_power with
model_name "Model X 60HP Turbo" yields 60, and a record with no matches
yields absent. -/
theorem C7_smart_extract_hp_strategies :
    (∀ (data : Record) (i : ℤ), hpDirect data = Option.some i →
      smart_extract_hp data = Option.some i) ∧
    (∀ data : Record, hpDirect data = Option.none →
      smart_extract_hp data = hpFallback data) ∧
    smart_extract_hp ⟨Option.some (Value.str "75 HP engine"), Option.none⟩ = Option.some 75 ∧
    smart_extract_hp ⟨Option.some Value.none,
      Option.some (Value.str "Model X 60HP Turbo")⟩ = Option.some 60 ∧
    smart_extract_hp ⟨Option.some Value.none,
      Option.some (Value.str "Plain Model")⟩ = Option.none := by
  refine ⟨?_, ?_, by decide, by decide, by decide⟩
  · intro data i h
    simp only [smart_extract_hp, h]
  · intro data h
    simp only [smart_extract_hp, h]

/-- Witness for C7: a numeric horse_power field hits strategy 1. -/
theorem C7_smart_extract_hp_strategies_witness :
    smart_extract_hp ⟨Option.some (Value.int 42), Option.none⟩ = Option.some 42 :=
  C7_smart_extract_hp_strategies.1 _ 42 (by decide)

/-- C10: whenever the extractor returns a value, it lies in the validator's
inclusive range [15, 100]. -/
theorem C10_smart_extract_hp_range :
    ∀ (data : Record) (i : ℤ), smart_extract_hp data = Option.some i →
      15 ≤ i ∧ i ≤ 100 := by
  intro data i h
  rw [smart_extract_hp] at h
  split at h
  next j hj =>
    obtain rfl : j = i := by injection h
    rw [hpDirect] at hj
    exact sanity_check_hp_some_range hj
  next hj =>
    rw [hpFallback] at h
    split at h
    next s hs =>
      split at h
      · obtain ⟨m, _, hfm⟩ := findSome?_mem h
        exact sanity_check_hp_some_range hfm
      · exact absurd h (by simp)
    next v hv => exact absurd h (by simp)

/-- Witness for C10 at the "75 HP engine" record. -/
theorem C10_smart_extract_hp_range_witness :
    15 ≤ (75 : ℤ) ∧ (75 : ℤ) ≤ 100 :=
  C10_smart_extract_hp_range ⟨Option.some (Value.str "75 HP engine"), Option.none⟩ 75 (by decide)

/-- C5 counterexample: the uniform fail-soft policy does not hold.
`calculate_confidence` raises (modelled as `Option.none`) on a sequence
containing an empty score step — `torch.max` raises a RuntimeError there —
`clean_cost` raises on `float('nan')`, since `int(nan)` raises ValueError
outside any try block, and `smart_extract_hp` raises AttributeError on any
non-mapping input such as `None`, at the unguarded `data.get`. -/
theorem C5_failsoft_counterexample :
    calculate_confidence [([] : List ℝ)] = Option.none ∧
    clean_cost (Value.float PyFloat.nan) = Option.none ∧
    smart_extract_hp_py Value.none = Option.none := by
  refine ⟨?_, rfl, rfl⟩
  apply calculate_confidence_of_empty_step
  push_neg
  exact ⟨[], by simp, rfl⟩

theorem validate_bbox_falsy {v : Value} (h : truthy v = false) :
    validate_bbox v = Value.dict [("present", Value.bool false), ("bbox", zeroBox)] := by
  simp [validate_bbox, h]

/-- C5 amended: the fail-soft policy holds with three exceptions.
`clean_cost` returns a value unless the input is a non-finite float (NaN or
±inf, where `int()` raises); `calculate_confidence` returns a value unless
the sequence is nonempty and contains an empty step (where `torch.max`
raises); `smart_extract_hp` returns a value (a validated integer or the
fallback "absent") exactly when its input is a mapping, and raises
AttributeError at `data.get` on every other input; `validate_bbox` and
`sanity_check_hp` are total, and `validate_bbox` always returns a mapping
carrying both the `present` and `bbox` keys. -/
theorem C5_failsoft_amended :
    (∀ v : Value, (clean_cost v).isSome = true ↔
      ¬(v = Value.float PyFloat.nan ∨ v = Value.float PyFloat.inf ∨
        v = Value.float PyFloat.ninf)) ∧
    (∀ scores : List (List ℝ), (calculate_confidence scores).isSome = true ↔
      (scores = [] ∨ ∀ step ∈ scores, step ≠ [])) ∧
    (∀ v : Value, (smart_extract_hp_py v).isSome = true ↔
      ∃ d : List (String × Value), v = Value.dict d) ∧
    (∀ v : Value, ∃ d : List (String × Value), validate_bbox v = Value.dict d ∧
      hasKey "present" d = true ∧ hasKey "bbox" d = true) := by
  refine ⟨?_, ?_, ?_, ?_⟩
  · intro v
    rcases v with _ | b | n | f | s | l | d
    · simp [clean_cost]
    · simp [clean_cost]
    · simp [clean_cost]
    · rcases f with q | _ | _ | _ <;> simp [clean_cost]
    · have hsome : (clean_cost (Value.str s)).isSome = true := by
        simp only [clean_cost]
        split <;> rfl
      simp [hsome]
    · simp [clean_cost]
    · simp [clean_cost]
  · intro scores
    cases scores with
    | nil => simp [calculate_confidence_nil]
    | cons s ss =>
      by_cases hall : ∀ step ∈ s :: ss, step ≠ []
      · rw [calculate_confidence_cons s ss hall]
        simp only [Option.isSome_some, true_iff]
        exact Or.inr hall
      · rw [calculate_confidence_of_empty_step s ss hall]
        simp only [Option.isSome_none, Bool.false_eq_true, false_iff]
        rintro (hc | hc)
        · exact absurd hc (by simp)
        · exact hall hc
  · intro v
    rcases v with _ | b | n | f | s | l | d <;> simp [smart_extract_hp_py]
  · intro v
    by_cases hv : truthy v
    · rcases v with _ | b | n | f | s | l | d
      · simp [truthy] at hv
      · exact ⟨[("present", Value.bool false), ("bbox", zeroBox)],
          by simp [validate_bbox, hv], rfl, rfl⟩
      · exact ⟨[("present", Value.bool false), ("bbox", zeroBox)],
          by simp [validate_bbox, hv], rfl, rfl⟩
      · exact ⟨[("present", Value.bool false), ("bbox", zeroBox)],
          by simp [validate_bbox, hv], rfl, rfl⟩
      · exact ⟨[("present", Value.bool false), ("bbox", zeroBox)],
          by simp [validate_bbox, hv], rfl, rfl⟩
      · exact ⟨[("present", Value.bool true),
            ("bbox", if l.length == 4 then Value.list l else zeroBox)],
          by simp [validate_bbox, hv], rfl, rfl⟩
      · by_cases hb : hasKey "bbox" d
        · by_cases hp2 : hasKey "present" d
          · exact ⟨d, by simp [validate_bbox, hv, hb, hp2], hp2, hb⟩
          · exact ⟨setKey "present"
                (Value.bool (!(eqZeroBox ((lookupVal "bbox" d).getD Value.none)))) d,
              by simp [validate_bbox, hv, hb, hp2],
              hasKey_setKey_self _ _ _, hasKey_setKey_mono _ _ _ _ hb⟩
        · have hb1 : hasKey "bbox" (setKey "bbox" zeroBox d) = true :=
            hasKey_setKey_self _ _ _
          by_cases hp2 : hasKey "present" (setKey "bbox" zeroBox d)
          · exact ⟨setKey "bbox" zeroBox d,
              by simp [validate_bbox, hv, hb, hp2], hp2, hb1⟩
          · exact ⟨setKey "present"
                (Value.bool (!(eqZeroBox
                  ((lookupVal "bbox" (setKey "bbox" zeroBox d)).getD Value.none))))
                (setKey "bbox" zeroBox d),
              by simp [validate_bbox, hv, hb, hp2],
              hasKey_setKey_self _ _ _, hasKey_setKey_mono _ _ _ _ hb1⟩
    · have hf : truthy v = false := by simpa using hv
      exact ⟨[("present", Value.bool false), ("bbox", zeroBox)],
        validate_bbox_falsy hf, rfl, rfl⟩

/-- Witness for C5 amended: `clean_cost` is defined at an ordinary int,
`calculate_confidence` at the empty sequence, and `smart_extract_hp` at the
empty mapping. -/
theorem C5_failsoft_amended_witness :
    (clean_cost (Value.int 7)).isSome = true ∧
    (calculate_confidence ([] : List (List ℝ))).isSome = true ∧
    (smart_extract_hp_py (Value.dict [])).isSome = true :=
  ⟨(C5_failsoft_amended.1 (Value.int 7)).mpr (by simp),
   (C5_failsoft_amended.2.1 []).mpr (Or.inl rfl),
   (C5_failsoft_amended.2.2.1 (Value.dict [])).mpr ⟨[], rfl⟩⟩

/-- C8 counterexample: booleans are ints in Python, so `clean_cost(True)` is
1 where the claim demands 0; integer conversion keeps the sign, so the
result can be negative where the claim demands a non-negative integer; and
`int(float('nan'))` raises where the claim demands a value for every input. -/
theorem C8_clean_cost_counterexample :
    clean_cost (Value.bool true) = Option.some 1 ∧
    clean_cost (Value.int (-5)) = Option.some (-5) ∧
    clean_cost (Value.float PyFloat.nan) = Option.none :=
  ⟨rfl, rfl, rfl⟩

/-- C8 amended: int and finite-float input is truncated toward zero keeping
its sign (booleans count as ints: True yields 1, False yields 0); `int()` on
NaN or ±infinity raises instead of returning; string input has non-digit
characters stripped and the remaining digits parsed as a non-negative
integer (0 when empty); input of any other type yields 0. -/
theorem C8_clean_cost_amended :
    (∀ n : ℤ, clean_cost (Value.int n) = Option.some n) ∧
    (∀ b : Bool, clean_cost (Value.bool b) = Option.some (if b then 1 else 0)) ∧
    (∀ q : ℚ, clean_cost (Value.float (PyFloat.finite q)) = Option.some (pyTrunc q)) ∧
    (∀ f : PyFloat, clean_cost (Value.float f) = Option.none ↔
      (f = PyFloat.nan ∨ f = PyFloat.inf ∨ f = PyFloat.ninf)) ∧
    (∀ s : String, ∃ n : ℤ, clean_cost (Value.str s) = Option.some n ∧ 0 ≤ n) ∧
    clean_cost Value.none = Option.some 0 ∧
    (∀ l : List Value, clean_cost (Value.list l) = Option.some 0) ∧
    (∀ d : List (String × Value), clean_cost (Value.dict d) = Option.some 0) := by
  refine ⟨fun n => rfl, fun b => rfl, fun q => rfl, ?_, ?_, rfl, fun l => rfl, fun d => rfl⟩
  · intro f
    rcases f with q | _ | _ | _ <;> simp [clean_cost]
  · intro s
    by_cases hc : (s.toList.filter Char.isDigit).isEmpty
    · refine ⟨0, ?_, le_refl 0⟩
      simp only [clean_cost]
      rw [if_pos hc]
    · refine ⟨(digitsToNat (s.toList.filter Char.isDigit) : ℤ), ?_, Int.natCast_nonneg _⟩
      simp only [clean_cost]
      rw [if_neg hc]

/-- Witness for C8 amended: infinity raises, and a currency string parses to
a non-negative integer. -/
theorem C8_clean_cost_amended_witness :
    clean_cost (Value.float PyFloat.inf) = Option.none ∧
    ∃ n : ℤ, clean_cost (Value.str "$12,345") = Option.some n ∧ 0 ≤ n :=
  ⟨(C8_clean_cost_amended.2.2.2.1 PyFloat.inf).mpr (Or.inr (Or.inl rfl)),
   C8_clean_cost_amended.2.2.2.2.1 "$12,345"⟩

/-- C9 counterexample: the empty sequence is falsy, so `validate_bbox([])`
takes the default branch and reports `present: False`, not the
`present: True` the claim states for sequences of length other than 4. -/
theorem C9_validate_bbox_empty_counterexample :
    validate_bbox (Value.list []) =
      Value.dict [("present", Value.bool false), ("bbox", zeroBox)] ∧
    validate_bbox (Value.list []) ≠
      Value.dict [("present", Value.bool true), ("bbox", zeroBox)] := by
  refine ⟨rfl, ?_⟩
  intro h
  rw [show validate_bbox (Value.list []) =
    Value.dict [("present", Value.bool false), ("bbox", zeroBox)] from rfl] at h
  simp at h

/-- C9 amended: a 4-element sequence yields present-true carrying that
sequence; a nonempty sequence of any other length yields present-true with
the zero box; the empty sequence is falsy and takes the default branch,
yielding present-false with the zero box. -/
theorem C9_validate_bbox_sequences :
    (∀ l : List Value, l ≠ [] → validate_bbox (Value.list l) =
      Value.dict [("present", Value.bool true),
        ("bbox", if l.length == 4 then Value.list l else zeroBox)]) ∧
    validate_bbox (Value.list []) =
      Value.dict [("present", Value.bool false), ("bbox", zeroBox)] := by
  constructor
  · intro l hl
    cases l with
    | nil => exact absurd rfl hl
    | cons a as => rfl
  · rfl

/-- Witness for C9 at the 3-element sequence from the spec examples. -/
theorem C9_validate_bbox_sequences_witness :
    validate_bbox (Value.list [Value.int 1, Value.int 2, Value.int 3]) =
      Value.dict [("present", Value.bool true), ("bbox", zeroBox)] := by
  have h := C9_validate_bbox_sequences.1 [Value.int 1, Value.int 2, Value.int 3] (by simp)
  simpa using h
